import Mathlib

/-!
Verification of the output-normalization pipeline of
`langchain_opendataloader_pdf/document_loaders.py` (class `OpenDataLoaderPDFLoader`).

Strings are modelled as `List Char`.  Python `str.strip()` is modelled by
`pyStrip`, restricted to the ASCII whitespace characters Python strips
(`' '`, `'\t'`, `'\n'`, `'\r'`, `'\x0b'`, `'\x0c'`); the claims under study
only involve these.  Python's `re` module is modelled by a handwritten
matcher for the one concrete pattern the loader compiles
(`re.escape(separator)` with the escaped `%page-number%` placeholder
replaced by `(\d+)`): since the character following the digit group in the
pattern is `'>'`, greedy matching of `(\d+)` is equivalent to taking the
maximal digit run, which is what `takeDigits` does.  `\d` is modelled as
the ASCII digits; the separators the loader itself injects only use these.
-/

namespace ODL

/-- The whitespace characters stripped by Python `str.strip()` (ASCII range). -/
def isPySpace (c : Char) : Bool :=
  c = ' ' || c = '\t' || c = '\n' || c = '\r' || c = '\x0b' || c = '\x0c'

/-- Python `s.strip()`: drop leading and trailing whitespace. -/
def pyStrip (s : List Char) : List Char :=
  ((s.dropWhile isPySpace).reverse.dropWhile isPySpace).reverse

/-- ASCII decimal digit test (models `\d` on the loader's own separators). -/
def isDigitC (c : Char) : Bool := '0' ≤ c && c ≤ '9'

/-- `_PAGE_SPLIT_SEPARATOR = "\n<<<ODL_PAGE_BREAK_%page-number%>>>\n"`. -/
def pageSplitSeparator : String := "\n<<<ODL_PAGE_BREAK_%page-number%>>>\n"

/-- The literal text of the separator template before the placeholder. -/
def sepPre : List Char := "\n<<<ODL_PAGE_BREAK_".data

/-- The literal text of the separator template after the placeholder. -/
def sepSuf : List Char := ">>>\n".data

/-- If `p` is a literal-character prefix of `s`, return the remainder. -/
def stripPre (p s : List Char) : Option (List Char) :=
  match p, s with
  | [], s => some s
  | _ :: _, [] => none
  | a :: p, b :: s => if a = b then stripPre p s else none

/-- Maximal leading run of ASCII digits, and the rest. -/
def takeDigits : List Char → List Char × List Char
  | [] => ([], [])
  | c :: cs =>
    if isDigitC c then
      let r := takeDigits cs
      (c :: r.1, r.2)
    else ([], c :: cs)

/-- Try to match the compiled separator pattern
`\n<<<ODL_PAGE_BREAK_(\d+)>>>\n` at the very start of `s`.  On success,
return the captured digit group and the remainder after the match. -/
def matchSepAt (s : List Char) : Option (List Char × List Char) :=
  (stripPre sepPre s).bind fun t =>
    if (takeDigits t).1.isEmpty then none
    else (stripPre sepSuf (takeDigits t).2).map fun r => ((takeDigits t).1, r)

/-- The scanning loop of Python `re.split` for the separator pattern with
its one capture group: scan left to right; at each match, close the current
segment, record the captured digits, and continue after the match.  `acc` is
the text of the current segment accumulated so far.  `fuel` is a structural
recursion bound: every step consumes at least one character of `s`, so any
`fuel ≥ s.length` gives the loop's behaviour (`reSplit` passes `s.length`;
the `fuel = 0` fallback is unreachable then, see `splitAux_fuel_eq`). -/
def splitAux (fuel : Nat) (acc : List Char) (s : List Char) : List (List Char) :=
  match fuel, s with
  | _, [] => [acc]
  | 0, _ => [acc ++ s]
  | fuel + 1, c :: cs =>
    match matchSepAt (c :: cs) with
    | some (d, r) => acc :: d :: splitAux fuel [] r
    | none => splitAux fuel (acc ++ [c]) cs

/-- `re.split(separator_pattern, content)`: the resulting list of parts,
alternating text segments and captured page-number groups. -/
def reSplit (s : List Char) : List (List Char) := splitAux s.length [] s

/-- The numeric value of an ASCII digit character. -/
def digitVal (c : Char) : Nat := c.toNat - 48

/-- Python `int` on a captured ASCII digit string. -/
def parseNat (d : List Char) : Nat := d.foldl (fun n c => 10 * n + digitVal c) 0

/-- A LangChain `Document` as produced by this loader: `page_content` plus
the metadata fields the loader writes (`source`, `format`, and `page` when
page-scoped). -/
structure Doc where
  content : List Char
  source : String
  format : String
  page : Option Int
  deriving DecidableEq, Repr

/-- The `(page_num, content)`-pair loop of `_split_into_pages`
(`for i in range(1, len(parts), 2)`): each captured page number is parsed
with `int`, the following segment is stripped, and empty pages are skipped. -/
def pagePairs (fmt src : String) : List (List Char) → List Doc
  | [] => []
  | [_] => []
  | d :: c :: rest =>
    (if pyStrip c = [] then [] else
      [{ content := pyStrip c, source := src, format := fmt,
         page := some ((parseNat d : Nat) : Int) }]) ++ pagePairs fmt src rest

/-- `OpenDataLoaderPDFLoader._split_into_pages`: split `content` by the
separator pattern; the segment before the first separator becomes page 1
when non-empty after stripping; then `(page number, content)` pairs follow. -/
def splitIntoPages (fmt : String) (content : List Char) (src : String) : List Doc :=
  match reSplit content with
  | [] => []
  | p0 :: rest =>
    (if pyStrip p0 = [] then [] else
      [{ content := pyStrip p0, source := src, format := fmt, page := some 1 }]) ++
    pagePairs fmt src rest

/-! ### The structured (JSON) path -/

/-- A node of the converter's JSON output, restricted to the fields the
loader reads: `content`, `page number`, and the four nesting fields
`kids` / `rows` / `cells` / `list items`.  An absent nesting key is
modelled as `[]` (the loader only iterates over the children, so an
absent key and an empty list are indistinguishable); an absent `content`
or `page number` key is `none`.  The remaining JSON fields (`type`,
`file name`, ...) are never read by `_extract_text_from_element` or
`_split_json_into_pages` and are omitted. -/
inductive Element where
  | mk (content : Option (List Char)) (pageNumber : Option Int)
       (kids rows cells listItems : List Element)
  deriving Repr

def Element.content : Element → Option (List Char)
  | .mk c _ _ _ _ _ => c

def Element.pageNumber : Element → Option Int
  | .mk _ p _ _ _ _ => p

/-- `element.get("page number", 1)`. -/
def pageOf (e : Element) : Int := e.pageNumber.getD 1

/-- `filter(None, texts)`: drop the empty strings. -/
def filterNonEmpty (ts : List (List Char)) : List (List Char) :=
  ts.filter (fun t => !t.isEmpty)

/-- `"\n".join(ts)`. -/
def joinNL (ts : List (List Char)) : List Char := List.intercalate ['\n'] ts

mutual

/-- `OpenDataLoaderPDFLoader._extract_text_from_element`: the node's own
`content` (when the key is present), followed by the recursive extraction
of the children under `kids`, `rows`, `cells` and `list items`, in that
order; empty pieces are dropped and the rest joined with `"\n"`.
`extractList` is the elementwise recursion over one children list (the
inner `for child in element[key]` loop). -/
def extractText : Element → List Char
  | .mk content _ kids rows cells listItems =>
    joinNL (filterNonEmpty (content.toList
      ++ extractList kids ++ extractList rows
      ++ extractList cells ++ extractList listItems))

def extractList : List Element → List (List Char)
  | [] => []
  | e :: es => extractText e :: extractList es

end

/-- One step of the `defaultdict(list)` grouping: append `e` to the group
of key `k`, creating the group at the end on first use (Python dicts keep
key insertion order). -/
def addToGroups (gs : List (Int × List Element)) (k : Int) (e : Element) :
    List (Int × List Element) :=
  match gs with
  | [] => [(k, [e])]
  | (k', es) :: rest =>
    if k' = k then (k', es ++ [e]) :: rest else (k', es) :: addToGroups rest k e

/-- The grouping loop of `_split_json_into_pages`:
`for element in data.get("kids", []): pages[element.get("page number", 1)].append(element)`. -/
def buildGroups (kids : List Element) : List (Int × List Element) :=
  kids.foldl (fun gs e => addToGroups gs (pageOf e) e) []

/-- Dictionary lookup `pages[page_num]` (total, because it is only called
on keys that are present; returns `[]` otherwise). -/
def lookupGroup (gs : List (Int × List Element)) (k : Int) : List Element :=
  match gs with
  | [] => []
  | (k', es) :: rest => if k' = k then es else lookupGroup rest k

/-- `sorted(...)` on the page-number keys (insertion sort). -/
def sortInts (l : List Int) : List Int := List.insertionSort (· ≤ ·) l

/-- `OpenDataLoaderPDFLoader._split_json_into_pages`: group the root's
top-level `kids` by page number, then for each page in ascending order
join the per-node extractions with `"\n"` and emit a `Document` when that
joined text is non-empty after stripping (the emitted content itself is
not stripped). -/
def splitJsonIntoPages (fmt src : String) (kids : List Element) : List Doc :=
  let gs := buildGroups kids
  (sortInts (gs.map (·.1))).flatMap fun p =>
    let pageContent := joinNL (filterNonEmpty ((lookupGroup gs p).map extractText))
    if pyStrip pageContent = [] then []
    else [{ content := pageContent, source := src, format := fmt, page := some p }]

/-! ### The loader and `lazy_load`

`lazy_load` talks to two external collaborators that are out of scope for
this repository: the `opendataloader_pdf.convert` invocation plus the
scratch-directory file system (modelled by `convertOk` and the globbed
`ConvertedFile` list with each file's read outcome), and `json.loads`
(modelled by a parsing oracle `parse : String → Option (List Element)`
returning the root's `kids` list, or `none` when the raw output is not
valid JSON and `json.loads` raises).  The per-file `file.unlink()` sits in
its own inner `try/except` and never affects the yielded documents, so it
is not modelled.  The remaining constructor options are only forwarded to
the external converter and do not influence the normalization logic. -/

/-- ASCII lowercasing of one character (Python `str.lower()` is Unicode;
the format strings being compared are ASCII). -/
def lowerChar (c : Char) : Char :=
  if 'A' ≤ c && c ≤ 'Z' then Char.ofNat (c.toNat + 32) else c

/-- `format.lower()`. -/
def pyLower (s : String) : String := String.mk (s.data.map lowerChar)

/-- The state `__init__` stores that the normalization logic later reads:
`file_path` normalization to a list, `format.lower()`, and `split_pages`. -/
structure Loader where
  filePaths : List String
  format : String
  splitPages : Bool

/-- `OpenDataLoaderPDFLoader.__init__` (a single path is wrapped into a
one-element list by the constructor; we take the already-listed form). -/
def mkLoader (filePath : List String) (format : String) (splitPages : Bool) : Loader :=
  { filePaths := filePath, format := pyLower format, splitPages := splitPages }

/-- The accepted `format` values checked at the top of `lazy_load`. -/
def validFormats : List String := ["json", "text", "html", "markdown"]

/-- The `ValueError` message raised for an unrecognized format. -/
def invalidFormatMsg (fmt : String) : String :=
  "Invalid format '" ++ fmt ++ "'. Valid options are: 'json', 'text', 'html', 'markdown'"

/-- `file.with_suffix(".pdf").name` on a scratch-directory file name:
replace the extension after the last dot (append when there is none). -/
def withSuffixPdf (name : String) : String :=
  let cs := name.data
  if cs.contains '.' then
    String.mk (((cs.reverse.dropWhile (fun c => c ≠ '.')).drop 1).reverse) ++ ".pdf"
  else name ++ ".pdf"

/-- One converted output file in the scratch directory: its file name and
the outcome of `open(file).read()` (`none` models a raised I/O error). -/
structure ConvertedFile where
  name : String
  readResult : Option String

/-- The documents produced for one file's content, or `none` when an
exception escapes this step (only `json.loads` can raise here). -/
def docsForFile (L : Loader) (parse : String → Option (List Element))
    (content : String) (src : String) : Option (List Doc) :=
  if L.splitPages then
    if L.format = "json" then
      (parse content).map fun kids => splitJsonIntoPages L.format src kids
    else some (splitIntoPages L.format content.data src)
  else some [{ content := content.data, source := src, format := L.format, page := none }]

/-- Read one file and process it; `none` when reading or processing raises. -/
def fileDocs (L : Loader) (parse : String → Option (List Element))
    (f : ConvertedFile) : Option (List Doc) :=
  f.readResult.bind fun content => docsForFile L parse content (withSuffixPdf f.name)

/-- The `for file in files:` loop.  It runs inside the single `try/except`
of `lazy_load`, so the first raised exception ends the whole iteration:
documents of the files processed before it have already been yielded, and
every later file is skipped. -/
def runFiles (L : Loader) (parse : String → Option (List Element)) :
    List ConvertedFile → List Doc
  | [] => []
  | f :: rest =>
    match fileDocs L parse f with
    | none => []
    | some ds => ds ++ runFiles L parse rest

/-- `OpenDataLoaderPDFLoader.lazy_load`, as the list of documents the
generator yields (`Except.error` models the `ValueError` escaping to the
caller; every other exception is caught by the `except` clause and only
logged).  `convertOk = false` models `opendataloader_pdf.convert` (or the
scratch-directory setup) raising, in which case nothing is yielded. -/
def lazyLoad (L : Loader) (parse : String → Option (List Element))
    (convertOk : Bool) (files : List ConvertedFile) : Except String (List Doc) :=
  if L.format ∈ validFormats then
    .ok (if convertOk then runFiles L parse files else [])
  else
    .error (invalidFormatMsg L.format)

/-! ### Specification-side constructions

The following definitions build the inputs the claims quantify over (they
come from the claims, not from the loader): decimal rendering of page
numbers, the instantiated separator, the claim's joined multi-page
content, and predicates on page contents. -/

/-- The ASCII digit character for a single decimal digit. -/
def digitChar : Nat → Char
  | 0 => '0' | 1 => '1' | 2 => '2' | 3 => '3' | 4 => '4'
  | 5 => '5' | 6 => '6' | 7 => '7' | 8 => '8' | _ => '9'

/-- The digit-peeling loop behind `str(n)`; `fuel` is a structural
recursion bound (any `fuel ≥ n` works, since `n / 10 < n` for `n ≥ 10`). -/
def decimalDigitsAux (fuel : Nat) (n : Nat) : List Char :=
  match fuel with
  | 0 => [digitChar n]
  | fuel + 1 =>
    if n < 10 then [digitChar n]
    else decimalDigitsAux fuel (n / 10) ++ [digitChar (n % 10)]

/-- Python `str(n)` for a natural number. -/
def decimalDigits (n : Nat) : List Char := decimalDigitsAux n n

/-- The separator template instantiated with page number `n`
(`"\n<<<ODL_PAGE_BREAK_" + str(n) + ">>>\n"`). -/
def sepFor (n : Nat) : List Char := sepPre ++ decimalDigits n ++ sepSuf

/-- N pages joined with the separator template instantiated with page
numbers `i, i+1, ...`, each instantiated separator preceding its page's
content (the layout the external converter produces). -/
def joinPagesFrom (i : Nat) : List (List Char) → List Char
  | [] => []
  | p :: ps => sepFor i ++ p ++ joinPagesFrom (i + 1) ps

/-- The part list `re.split` produces for well-formed joined content after
the leading empty segment: captured digits alternating with page contents. -/
def pairsParts (i : Nat) : List (List Char) → List (List Char)
  | [] => []
  | p :: ps => decimalDigits i :: p :: pairsParts (i + 1) ps

/-- The records the round-trip claim expects: one per page, content
stripped, pages numbered consecutively from `i`. -/
def expectedDocs (fmt src : String) (i : Nat) : List (List Char) → List Doc
  | [] => []
  | p :: ps =>
    { content := pyStrip p, source := src, format := fmt, page := some (i : Int) } ::
    expectedDocs fmt src (i + 1) ps

/-- `re.search` for the separator pattern: does it match at any position? -/
def hasSepFrom : List Char → Bool
  | [] => false
  | c :: cs => (matchSepAt (c :: cs)).isSome || hasSepFrom cs

/-- Does `s` end with a dangling separator, i.e. with
`"\n<<<ODL_PAGE_BREAK_" + digits + ">>>"` (the pattern minus its final
newline)?  Checked by testing whether appending one `'\n'` completes a
match that consumes the whole remainder. -/
def endsDangling : List Char → Bool
  | [] => false
  | c :: cs =>
    (match matchSepAt ((c :: cs) ++ ['\n']) with
     | some (_, []) => true
     | _ => false) || endsDangling cs

end ODL

/-! ## Theorems -/

namespace ODL

/-- Sanity: the two literal pieces really decompose the template around
the `%page-number%` placeholder. -/
theorem sepPre_placeholder_sepSuf :
    sepPre ++ "%page-number%".data ++ sepSuf = pageSplitSeparator.data := by
  decide

theorem stripPre_some_eq {p s t : List Char} (h : stripPre p s = some t) :
    s = p ++ t := by
  induction p generalizing s with
  | nil => simpa [stripPre] using h
  | cons a p ih =>
    match s with
    | [] => simp [stripPre] at h
    | b :: s =>
      by_cases hab : a = b
      · simp [stripPre, hab] at h
        simpa [hab] using congrArg (b :: ·) (ih h)
      · simp [stripPre, hab] at h

theorem stripPre_append (p r : List Char) : stripPre p (p ++ r) = some r := by
  induction p with
  | nil => simp [stripPre]
  | cons a p ih => simp [stripPre, ih]

theorem takeDigits_eq {t d r : List Char} (h : takeDigits t = (d, r)) :
    t = d ++ r ∧ (∀ c ∈ d, isDigitC c = true) := by
  induction t generalizing d r with
  | nil =>
    simp [takeDigits] at h
    simp [h.1, h.2]
  | cons c cs ih =>
    by_cases hc : isDigitC c
    · simp [takeDigits, hc] at h
      rcases h with ⟨hd, hr⟩
      rcases ih (Prod.mk.injEq .. ▸ rfl : takeDigits cs = ((takeDigits cs).1, (takeDigits cs).2)) with ⟨ht, hall⟩
      subst hd hr
      constructor
      · simpa using ht
      · intro x hx
        rcases List.mem_cons.mp hx with h1 | h2
        · simpa [h1] using hc
        · exact hall x h2
    · simp [takeDigits, hc] at h
      obtain ⟨h1, h2⟩ := h
      subst h1
      subst h2
      constructor <;> simp

/-- `takeDigits` on a digit run followed by a non-digit splits exactly there. -/
theorem takeDigits_run {d : List Char} (hd : ∀ c ∈ d, isDigitC c = true)
    {r : List Char} (hr : ∀ c cs, r = c :: cs → isDigitC c = false) :
    takeDigits (d ++ r) = (d, r) := by
  induction d with
  | nil =>
    match r with
    | [] => simp [takeDigits]
    | c :: cs =>
      have := hr c cs rfl
      simp [takeDigits, this]
  | cons c cs ih =>
    have hc : isDigitC c = true := hd c (by simp)
    have ih' := ih (fun x hx => hd x (by simp [hx]))
    simp [takeDigits, hc, ih']

/-- Characterization of a successful separator match. -/
theorem matchSepAt_some {s d r : List Char} :
    matchSepAt s = some (d, r) ↔
      s = sepPre ++ d ++ sepSuf ++ r ∧ d ≠ [] ∧ (∀ c ∈ d, isDigitC c = true) := by
  constructor
  · intro h
    rw [matchSepAt, Option.bind_eq_some] at h
    obtain ⟨t, hp, h⟩ := h
    by_cases he : (takeDigits t).1.isEmpty
    · simp [he] at h
    · rw [if_neg he, Option.map_eq_some'] at h
      obtain ⟨r', hq, hdr⟩ := h
      cases hdr
      obtain ⟨ht2, hdig⟩ := takeDigits_eq (Prod.mk.injEq .. ▸ rfl :
        takeDigits t = ((takeDigits t).1, (takeDigits t).2))
      have h1 := stripPre_some_eq hp
      have h3 := stripPre_some_eq hq
      refine ⟨?_, ?_, hdig⟩
      · calc s = sepPre ++ t := h1
          _ = sepPre ++ ((takeDigits t).1 ++ (takeDigits t).2) :=
                congrArg (sepPre ++ ·) ht2
          _ = sepPre ++ ((takeDigits t).1 ++ (sepSuf ++ r)) := by rw [h3]
          _ = sepPre ++ (takeDigits t).1 ++ sepSuf ++ r := by simp
      · intro hnil
        rw [hnil] at he
        simp at he
  · rintro ⟨hs, hne, hall⟩
    subst hs
    rw [matchSepAt]
    rw [show sepPre ++ d ++ sepSuf ++ r = sepPre ++ (d ++ (sepSuf ++ r)) by simp,
      stripPre_append]
    have ht : takeDigits (d ++ (sepSuf ++ r)) = (d, sepSuf ++ r) := by
      apply takeDigits_run hall
      intro c cs hc
      have hc' : c = '>' := by
        have hss : sepSuf ++ r = '>' :: (">>\n".data ++ r) := by simp [sepSuf]
        rw [hss] at hc
        exact (List.cons.injEq .. ▸ hc).1.symm
      rw [hc']; decide
    rw [Option.some_bind, ht]
    simp only [List.isEmpty_iff, hne, if_false]
    rw [stripPre_append, Option.map_some']

/-- A successful match consumes at least one character. -/
theorem matchSepAt_rest_lt {s d r : List Char} (h : matchSepAt s = some (d, r)) :
    r.length < s.length := by
  obtain ⟨hs, hne, -⟩ := matchSepAt_some.mp h
  rw [hs]
  simp [sepPre, sepSuf]
  omega

theorem extractList_eq_map (l : List Element) : extractList l = l.map extractText := by
  induction l with
  | nil => simp [extractList]
  | cons e es ih => simp [extractList, ih]

/-- `extractText` with the inner list recursion written as `List.map`. -/
theorem extractText_def (content : Option (List Char)) (p : Option Int)
    (kids rows cells listItems : List Element) :
    extractText (.mk content p kids rows cells listItems) =
      joinNL (filterNonEmpty (content.toList
        ++ kids.map extractText ++ rows.map extractText
        ++ cells.map extractText ++ listItems.map extractText)) := by
  rw [extractText]
  simp [extractList_eq_map]

/-! ### The splitter loop: fuel irrelevance and behaviour -/

/-- Any two sufficient fuels give the same result: the loop consumes at
least one character per step. -/
theorem splitAux_fuel_eq {fuel fuel2 : Nat} (acc s : List Char)
    (h1 : s.length ≤ fuel) (h2 : s.length ≤ fuel2) :
    splitAux fuel acc s = splitAux fuel2 acc s := by
  induction fuel generalizing fuel2 acc s with
  | zero =>
    have hs : s = [] := List.length_eq_zero.mp (by omega)
    subst hs
    cases fuel2 <;> simp [splitAux]
  | succ f ih =>
    match s with
    | [] => cases fuel2 <;> simp [splitAux]
    | c :: cs =>
      cases fuel2 with
      | zero => simp at h2
      | succ f2 =>
        rw [splitAux, splitAux]
        cases hm : matchSepAt (c :: cs) with
        | some v =>
          obtain ⟨d, r⟩ := v
          have hr := matchSepAt_rest_lt hm
          simp only [hm]
          simp only [List.length_cons] at h1 h2 hr
          rw [@ih f2 [] r (by omega) (by omega)]
        | none =>
          simp only [hm]
          simp only [List.length_cons] at h1 h2
          exact ih _ _ (by omega) (by omega)

/-- With no separator occurrence anywhere in `s`, the scan closes a single
segment holding everything. -/
theorem splitAux_no_match {s : List Char} (hno : hasSepFrom s = false)
    {fuel : Nat} (hf : s.length ≤ fuel) (acc : List Char) :
    splitAux fuel acc s = [acc ++ s] := by
  induction s generalizing fuel acc with
  | nil => cases fuel <;> simp [splitAux]
  | cons c cs ih =>
    rw [hasSepFrom, Bool.or_eq_false_iff] at hno
    obtain ⟨h1, h2⟩ := hno
    have h1' : matchSepAt (c :: cs) = none := by
      cases hm : matchSepAt (c :: cs) with
      | none => rfl
      | some v => rw [hm] at h1; simp at h1
    cases fuel with
    | zero => simp at hf
    | succ f =>
      rw [splitAux]
      simp only [h1']
      rw [ih h2 (by simp only [List.length_cons] at hf ⊢; omega) (acc ++ [c])]
      simp

/-- `re.split` on a string without separator occurrences returns it whole. -/
theorem reSplit_no_match {s : List Char} (hno : hasSepFrom s = false) :
    reSplit s = [s] := by
  unfold reSplit
  simpa using splitAux_no_match hno le_rfl []

/-- C8: for every input string that contains no occurrence of the separator
pattern and is non-empty after trimming, `_split_into_pages` yields exactly
one record whose page metadata is 1 and whose content equals the trimmed
input string. -/
theorem C8_no_separator_single_page (fmt src : String) (content : List Char)
    (hno : hasSepFrom content = false) (hne : pyStrip content ≠ []) :
    splitIntoPages fmt content src =
      [{ content := pyStrip content, source := src, format := fmt, page := some 1 }] := by
  unfold splitIntoPages
  rw [reSplit_no_match hno]
  simp [pagePairs, hne]

theorem C8_witness :
    hasSepFrom ("Single page content only".data) = false ∧
    pyStrip ("Single page content only".data) ≠ [] ∧
    splitIntoPages "text" ("Single page content only".data) "doc.pdf" =
      [{ content := pyStrip ("Single page content only".data), source := "doc.pdf",
         format := "text", page := some 1 }] :=
  ⟨by decide, by decide,
    C8_no_separator_single_page "text" "doc.pdf" ("Single page content only".data)
      (by decide) (by decide)⟩

/-- C9: `_split_into_pages` takes page numbers verbatim from the captured
tokens (plus the implicit page-1 label for leading content) with no
deduplication: content before the first separator together with a separator
token explicitly carrying page number 1 produces two distinct records both
labeled page 1. -/
theorem C9_splitter_duplicate_page_labels :
    splitIntoPages "text" ("X\n<<<ODL_PAGE_BREAK_1>>>\nY".data) "doc.pdf" =
      [{ content := "X".data, source := "doc.pdf", format := "text", page := some 1 },
       { content := "Y".data, source := "doc.pdf", format := "text", page := some 1 }] ∧
    ({ content := "X".data, source := "doc.pdf", format := "text", page := some 1 } : Doc) ≠
      { content := "Y".data, source := "doc.pdf", format := "text", page := some 1 } := by
  decide

/-! ### Stripping: `pyStrip` is idempotent and splitter output is stripped -/

theorem dropWhile_head_false {P : Char → Bool} :
    ∀ {s : List Char} {c : Char} {cs : List Char}, s.dropWhile P = c :: cs → P c = false := by
  intro s
  induction s with
  | nil => intro c cs h; simp [List.dropWhile] at h
  | cons a as ih =>
    intro c cs h
    by_cases hP : P a
    · rw [List.dropWhile_cons, if_pos hP] at h
      exact ih h
    · rw [List.dropWhile_cons, if_neg hP] at h
      injection h with h1 h2
      subst h1
      simpa using hP

theorem dropWhile_idem {P : Char → Bool} (s : List Char) :
    (s.dropWhile P).dropWhile P = s.dropWhile P := by
  cases hd : s.dropWhile P with
  | nil => rfl
  | cons c cs =>
    have hc := dropWhile_head_false hd
    simp [List.dropWhile_cons, hc]

/-- Stripping leaves no leading whitespace. -/
theorem pyStrip_no_leading (s : List Char) :
    (pyStrip s).dropWhile isPySpace = pyStrip s := by
  unfold pyStrip
  cases hC : ((s.dropWhile isPySpace).reverse.dropWhile isPySpace).reverse with
  | nil => rfl
  | cons c u =>
    have h0 : (s.dropWhile isPySpace).reverse =
        (s.dropWhile isPySpace).reverse.takeWhile isPySpace ++
        (s.dropWhile isPySpace).reverse.dropWhile isPySpace :=
      (List.takeWhile_append_dropWhile _ _).symm
    have h1 : s.dropWhile isPySpace =
        ((s.dropWhile isPySpace).reverse.dropWhile isPySpace).reverse ++
        ((s.dropWhile isPySpace).reverse.takeWhile isPySpace).reverse := by
      conv_lhs =>
        rw [← List.reverse_reverse (s.dropWhile isPySpace), h0, List.reverse_append]
    rw [hC] at h1
    have hc : isPySpace c = false := dropWhile_head_false h1
    rw [List.dropWhile_cons, if_neg (by simp [hc])]

/-- Python `strip` is idempotent. -/
theorem pyStrip_idem (s : List Char) : pyStrip (pyStrip s) = pyStrip s := by
  conv_lhs => rw [pyStrip]
  rw [pyStrip_no_leading s]
  rw [show (pyStrip s).reverse = (s.dropWhile isPySpace).reverse.dropWhile isPySpace from by
    rw [pyStrip]; simp]
  rw [dropWhile_idem]
  rfl

/-- Every record the splitter emits holds a stripped segment the loader
found non-empty after stripping. -/
theorem mem_splitIntoPages_content {fmt src : String} {content : List Char} {d : Doc} :
    d ∈ splitIntoPages fmt content src →
      ∃ seg, d.content = pyStrip seg ∧ pyStrip seg ≠ [] := by
  unfold splitIntoPages
  have aux : ∀ parts, d ∈ pagePairs fmt src parts →
      ∃ seg, d.content = pyStrip seg ∧ pyStrip seg ≠ [] := by
    intro parts
    induction parts using pagePairs.induct fmt src with
    | case1 => intro h; simp [pagePairs] at h
    | case2 _ => intro h; simp [pagePairs] at h
    | case3 pn c rest ih =>
      intro h
      rw [pagePairs] at h
      rcases List.mem_append.mp h with h1 | h2
      · by_cases he : pyStrip c = []
        · simp [he] at h1
        · rw [if_neg he] at h1
          simp at h1
          exact ⟨c, by rw [h1], he⟩
      · exact ih h2
  cases hr : reSplit content with
  | nil => intro h; simp at h
  | cons p0 rest =>
    intro h
    rcases List.mem_append.mp h with h1 | h2
    · by_cases he : pyStrip p0 = []
      · simp [he] at h1
      · rw [if_neg he] at h1
        simp at h1
        exact ⟨p0, by rw [h1], he⟩
    · exact aux rest h2

/-- C5: a page whose content is empty or only whitespace produces no
record: every record emitted by `_split_into_pages` or
`_split_json_into_pages` has content that is non-empty after stripping
(the splitter skips segments empty after stripping; the page-grouper skips
pages whose joined extracted text is empty after stripping). -/
theorem C5_empty_page_suppression :
    (∀ (fmt src : String) (content : List Char) (d : Doc),
        d ∈ splitIntoPages fmt content src → pyStrip d.content ≠ []) ∧
    (∀ (fmt src : String) (kids : List Element) (d : Doc),
        d ∈ splitJsonIntoPages fmt src kids → pyStrip d.content ≠ []) := by
  constructor
  · intro fmt src content d hd
    obtain ⟨seg, hc, hne⟩ := mem_splitIntoPages_content hd
    rw [hc, pyStrip_idem]
    exact hne
  · intro fmt src kids d hd
    unfold splitJsonIntoPages at hd
    rcases List.mem_flatMap.mp hd with ⟨p, hp, hmem⟩
    by_cases he :
        pyStrip (joinNL (filterNonEmpty ((lookupGroup (buildGroups kids) p).map extractText))) = []
    · simp only [he, if_pos rfl] at hmem
      simp at hmem
    · rw [if_neg he] at hmem
      simp at hmem
      rw [hmem]
      exact he

theorem C5_witness :
    ({ content := "Page 1 content".data, source := "t.pdf", format := "text",
       page := some 1 } : Doc) ∈
      splitIntoPages "text"
        ("Page 1 content\n<<<ODL_PAGE_BREAK_2>>>\n   ".data) "t.pdf" ∧
    pyStrip ("Page 1 content".data) ≠ [] :=
  ⟨by decide,
    C5_empty_page_suppression.1 "text" "t.pdf"
      ("Page 1 content\n<<<ODL_PAGE_BREAK_2>>>\n   ".data)
      { content := "Page 1 content".data, source := "t.pdf", format := "text",
        page := some 1 }
      (by decide)⟩

/-- C7: `_extract_text_from_element` treats children nested under any of
the four nesting fields (`kids`, `rows`, `cells`, `list items`) with the
same uniform recursive extraction, returning the node's own content (when
present) first; in particular a table node whose two cells each contain
one content string yields a text block containing both cell strings in
order, joined by newline. -/
theorem C7_uniform_nested_extraction :
    (∀ (c : Option (List Char)) (p : Option Int) (children : List Element),
        extractText (.mk c p children [] [] []) = extractText (.mk c p [] children [] []) ∧
        extractText (.mk c p children [] [] []) = extractText (.mk c p [] [] children []) ∧
        extractText (.mk c p children [] [] []) = extractText (.mk c p [] [] [] children)) ∧
    (∀ (c : List Char) (p : Option Int) (children : List Element),
        extractText (.mk (some c) p children [] [] []) =
          joinNL (filterNonEmpty (c :: children.map extractText))) ∧
    (∀ s1 s2 : List Char, s1 ≠ [] → s2 ≠ [] →
        extractText (.mk none none []
          [.mk none none [] []
            [.mk (some s1) none [] [] [] [], .mk (some s2) none [] [] [] []] []]
          [] []) = s1 ++ '\n' :: s2) := by
  refine ⟨?_, ?_, ?_⟩
  · intro c p children
    refine ⟨?_, ?_, ?_⟩ <;> simp [extractText_def]
  · intro c p children
    simp [extractText_def]
  · intro s1 s2 h1 h2
    simp [extractText_def, filterNonEmpty, joinNL, List.intercalate, h1, h2]

theorem C7_witness :
    ("Cell 1".data : List Char) ≠ [] ∧ ("Cell 2".data : List Char) ≠ [] ∧
    extractText (.mk none none []
        [.mk none none [] []
          [.mk (some ("Cell 1".data)) none [] [] [] [],
           .mk (some ("Cell 2".data)) none [] [] [] []] []]
        [] []) = "Cell 1\nCell 2".data :=
  ⟨by decide, by decide,
    C7_uniform_nested_extraction.2.2 ("Cell 1".data) ("Cell 2".data)
      (by decide) (by decide)⟩

/-- C10: the page-grouper's emitted content is the verbatim newline-join of
the per-node extractions — it may begin or end with whitespace (shown on a
concrete input), unlike `_split_into_pages`, whose record contents are
always stripped. -/
theorem C10_grouper_content_not_trimmed :
    (splitJsonIntoPages "json" "d.pdf"
        [.mk (some (" x\t".data)) (some 1) [] [] [] []] =
      [{ content := " x\t".data, source := "d.pdf", format := "json", page := some 1 }] ∧
     pyStrip (" x\t".data) ≠ " x\t".data) ∧
    (∀ (fmt src : String) (content : List Char) (d : Doc),
        d ∈ splitIntoPages fmt content src → pyStrip d.content = d.content) := by
  refine ⟨⟨by decide, by decide⟩, ?_⟩
  intro fmt src content d hd
  obtain ⟨seg, hc, -⟩ := mem_splitIntoPages_content hd
  rw [hc, pyStrip_idem]

theorem C10_witness :
    Doc.mk ("X".data) "s.pdf" "text" (some 1) ∈
      splitIntoPages "text" ("X".data) "s.pdf" ∧
    pyStrip (Doc.mk ("X".data) "s.pdf" "text" (some 1)).content =
      (Doc.mk ("X".data) "s.pdf" "text" (some 1)).content :=
  ⟨by decide,
    C10_grouper_content_not_trimmed.2 "text" "s.pdf" ("X".data)
      (Doc.mk ("X".data) "s.pdf" "text" (some 1)) (by decide)⟩

/-- C4: for every loader whose (lowercased) format is not among
json/text/html/markdown, construction succeeds and stores the lowercased
value, and `lazy_load` raises the `ValueError` naming the offending value
and the accepted set — independently of the converter outcome and of the
scratch directory contents, so no converter invocation is observable. -/
theorem C4_format_validation (fp : List String) (fmt : String) (sp : Bool)
    (parse : String → Option (List Element)) (convertOk : Bool)
    (files : List ConvertedFile) (h : pyLower fmt ∉ validFormats) :
    (mkLoader fp fmt sp).format = pyLower fmt ∧
    lazyLoad (mkLoader fp fmt sp) parse convertOk files =
      .error (invalidFormatMsg (pyLower fmt)) := by
  refine ⟨rfl, ?_⟩
  simp [lazyLoad, mkLoader, h]

theorem C4_witness :
    pyLower "xml" ∉ validFormats ∧
    invalidFormatMsg (pyLower "xml") =
      "Invalid format 'xml'. Valid options are: 'json', 'text', 'html', 'markdown'" ∧
    lazyLoad (mkLoader ["a.pdf"] "xml" true) (fun _ => none) true [] =
      .error (invalidFormatMsg (pyLower "xml")) :=
  ⟨by decide, by decide,
    (C4_format_validation ["a.pdf"] "xml" true (fun _ => none) true [] (by decide)).2⟩

/-- C6: in the page-split json mode the current code has no malformed-JSON
fallback: when `json.loads` raises, the blanket `except` swallows the
error and the generator yields nothing for the batch — not the single
verbatim raw-output record the specification (and the repository's own
`test_load_with_invalid_json`) expects. -/
theorem C6_malformed_json_yields_no_record :
    lazyLoad (mkLoader ["d.pdf"] "json" true) (fun _ => none) true
      [{ name := "doc.json", readResult := some "\x7bmalformed" }] = .ok [] ∧
    ([] : List Doc) ≠
      [{ content := "\x7bmalformed".data, source := "doc.pdf", format := "json",
         page := none }] :=
  ⟨rfl, by decide⟩

/-! ### Per-file failure behaviour of the loop in `lazy_load` -/

/-- When file `f` fails and every file before it succeeds, the loop yields
exactly the documents of the files before `f`: the exception ends the
iteration, so the files after `f` contribute nothing. -/
theorem runFiles_append_fail (L : Loader) (parse : String → Option (List Element))
    (f : ConvertedFile) (rest : List ConvertedFile)
    (hfail : fileDocs L parse f = none) :
    ∀ pre : List ConvertedFile, (∀ g ∈ pre, (fileDocs L parse g).isSome) →
      runFiles L parse (pre ++ f :: rest) =
        pre.flatMap (fun g => (fileDocs L parse g).getD []) := by
  intro pre
  induction pre with
  | nil =>
    intro _
    simp only [List.nil_append, List.flatMap_nil]
    rw [runFiles, hfail]
  | cons g pre2 ih =>
    intro hpre
    have hg : (fileDocs L parse g).isSome := hpre g (by simp)
    obtain ⟨ds, hds⟩ := Option.isSome_iff_exists.mp hg
    rw [List.cons_append, runFiles, hds]
    rw [ih (fun x hx => hpre x (by simp [hx]))]
    simp [List.flatMap_cons, hds]

/-- C3 (amended): a failure while reading or processing one file's
converted output is caught (only logged): with a valid format the load
never raises, and the records of the files processed before the failing
one are still yielded — but the files after it are skipped, because the
single `try/except` wraps the whole loop. -/
theorem C3_failure_isolation_amended (L : Loader) (parse : String → Option (List Element))
    (hfmt : L.format ∈ validFormats)
    (pre : List ConvertedFile) (f : ConvertedFile) (rest : List ConvertedFile)
    (hfail : fileDocs L parse f = none)
    (hpre : ∀ g ∈ pre, (fileDocs L parse g).isSome) :
    lazyLoad L parse true (pre ++ f :: rest) =
      .ok (pre.flatMap (fun g => (fileDocs L parse g).getD [])) ∧
    (∀ (convertOk : Bool) (files : List ConvertedFile),
        ∃ ds, lazyLoad L parse convertOk files = .ok ds) := by
  constructor
  · unfold lazyLoad
    rw [if_pos hfmt, if_pos rfl]
    rw [runFiles_append_fail L parse f rest hfail pre hpre]
  · intro convertOk files
    refine ⟨if convertOk then runFiles L parse files else [], ?_⟩
    unfold lazyLoad
    rw [if_pos hfmt]

/-- C3 counterexample to the claim as stated: in a batch of three files
where the second file's read raises, the third file is already gathered in
the scratch directory, yet its record is not yielded. -/
theorem C3_counterexample :
    lazyLoad (mkLoader ["x.pdf"] "text" true) (fun _ => none) true
      [{ name := "a.txt", readResult := some "A" },
       { name := "b.txt", readResult := none },
       { name := "c.txt", readResult := some "C" }] =
      .ok [{ content := "A".data, source := "a.pdf", format := "text", page := some 1 }] ∧
    Doc.mk ("C".data) "c.pdf" "text" (some 1) ∉
      [{ content := "A".data, source := "a.pdf", format := "text", page := some 1 }] ∧
    splitIntoPages "text" ("C".data) "c.pdf" = [Doc.mk ("C".data) "c.pdf" "text" (some 1)] :=
  ⟨rfl, by decide, by decide⟩

theorem C3_witness :
    (mkLoader ["x.pdf"] "text" true).format ∈ validFormats ∧
    fileDocs (mkLoader ["x.pdf"] "text" true) (fun _ => none)
      { name := "b.txt", readResult := none } = none ∧
    lazyLoad (mkLoader ["x.pdf"] "text" true) (fun _ => none) true
      ([{ name := "a.txt", readResult := some "A" }] ++
        { name := "b.txt", readResult := none } ::
          [{ name := "c.txt", readResult := some "C" }]) =
      .ok ([{ name := "a.txt", readResult := some "A" }].flatMap
        (fun g => (fileDocs (mkLoader ["x.pdf"] "text" true) (fun _ => none) g).getD [])) :=
  ⟨by decide, rfl,
    (C3_failure_isolation_amended (mkLoader ["x.pdf"] "text" true) (fun _ => none)
      (by decide) [{ name := "a.txt", readResult := some "A" }]
      { name := "b.txt", readResult := none }
      [{ name := "c.txt", readResult := some "C" }] rfl (by decide)).1⟩

/-! ### The page-grouper: grouping equals filtering, keys are distinct -/

theorem lookupGroup_addToGroups (gs : List (Int × List Element)) (k : Int)
    (e : Element) (p : Int) :
    lookupGroup (addToGroups gs k e) p =
      lookupGroup gs p ++ (if p = k then [e] else []) := by
  induction gs with
  | nil =>
    rw [addToGroups]
    simp only [lookupGroup]
    by_cases h : k = p
    · subst h
      simp
    · rw [if_neg h, if_neg (fun hpk : p = k => h hpk.symm)]
      simp
  | cons g rest ih =>
    obtain ⟨k', es⟩ := g
    rw [addToGroups]
    by_cases hk : k' = k
    · rw [if_pos hk]
      simp only [lookupGroup]
      by_cases hp : k' = p
      · rw [if_pos hp, if_pos hp, if_pos (show p = k by rw [← hp, hk])]
      · rw [if_neg hp, if_neg hp,
          if_neg (show ¬ p = k from fun h => hp (by rw [hk, ← h]))]
        simp
    · rw [if_neg hk]
      simp only [lookupGroup]
      by_cases hp : k' = p
      · rw [if_pos hp, if_pos hp,
          if_neg (show ¬ p = k from fun h => hk (by rw [hp, h]))]
        simp
      · rw [if_neg hp, if_neg hp]
        exact ih

/-- The `defaultdict` grouping loop collects, for each key, exactly the
elements of that page, in their original order. -/
theorem lookupGroup_foldl :
    ∀ (kids : List Element) (gs : List (Int × List Element)) (p : Int),
      lookupGroup (kids.foldl (fun a e => addToGroups a (pageOf e) e) gs) p =
        lookupGroup gs p ++ kids.filter (fun e => pageOf e = p) := by
  intro kids
  induction kids with
  | nil => intro gs p; simp
  | cons e rest ih =>
    intro gs p
    rw [List.foldl_cons, ih (addToGroups gs (pageOf e) e) p, lookupGroup_addToGroups,
      List.filter_cons]
    by_cases h : pageOf e = p
    · rw [if_pos h.symm]
      simp [h]
    · rw [if_neg (fun hh => h hh.symm)]
      simp [h]

theorem lookupGroup_buildGroups (kids : List Element) (p : Int) :
    lookupGroup (buildGroups kids) p = kids.filter (fun e => pageOf e = p) := by
  unfold buildGroups
  rw [lookupGroup_foldl kids [] p]
  rfl

theorem keys_addToGroups (gs : List (Int × List Element)) (k : Int) (e : Element) :
    (addToGroups gs k e).map Prod.fst =
      if k ∈ gs.map Prod.fst then gs.map Prod.fst else gs.map Prod.fst ++ [k] := by
  induction gs with
  | nil => simp [addToGroups]
  | cons g rest ih =>
    obtain ⟨k', es⟩ := g
    rw [addToGroups]
    by_cases hk : k' = k
    · subst hk
      simp
    · rw [if_neg hk]
      simp only [List.map_cons]
      rw [ih]
      by_cases hmem : k ∈ rest.map Prod.fst
      · rw [if_pos hmem, if_pos (by simp [hmem])]
      · have hnot : k ∉ (k' :: rest.map Prod.fst) := by
          simp only [List.mem_cons]
          rintro (h | h)
          · exact hk h.symm
          · exact hmem h
        rw [if_neg hmem, if_neg hnot]
        simp

theorem keys_nodup_foldl :
    ∀ (kids : List Element) (gs : List (Int × List Element)),
      (gs.map Prod.fst).Nodup →
      ((kids.foldl (fun a e => addToGroups a (pageOf e) e) gs).map Prod.fst).Nodup := by
  intro kids
  induction kids with
  | nil => intro gs h; exact h
  | cons e rest ih =>
    intro gs h
    rw [List.foldl_cons]
    apply ih
    rw [keys_addToGroups]
    by_cases hmem : pageOf e ∈ gs.map Prod.fst
    · rw [if_pos hmem]; exact h
    · rw [if_neg hmem]
      simp [List.nodup_append, h, hmem]

theorem keys_nodup (kids : List Element) :
    ((buildGroups kids).map Prod.fst).Nodup :=
  keys_nodup_foldl kids [] (by simp)

/-- Page values recovered from the grouper's per-key blocks stay within
the key list. -/
theorem grouperDocs_pages_mem (fmt src : String) (C : Int → List Char) :
    ∀ (ks : List Int) (x : Int),
      x ∈ (ks.flatMap (fun p => if pyStrip (C p) = [] then []
          else [Doc.mk (C p) src fmt (some p)])).filterMap Doc.page → x ∈ ks := by
  intro ks
  induction ks with
  | nil => intro x hx; simp at hx
  | cons k t ih =>
    intro x hx
    rw [List.flatMap_cons, List.filterMap_append] at hx
    rcases List.mem_append.mp hx with h | h
    · by_cases hg : pyStrip (C k) = []
      · rw [if_pos hg] at h
        simp at h
      · rw [if_neg hg] at h
        simp [Doc.page] at h
        simp [h]
    · exact List.mem_cons_of_mem _ (ih x h)

/-- Strictly increasing keys give strictly increasing emitted page values. -/
theorem grouperDocs_pairwise (fmt src : String) (C : Int → List Char) :
    ∀ ks : List Int, List.Pairwise (· < ·) ks →
      List.Pairwise (· < ·)
        ((ks.flatMap (fun p => if pyStrip (C p) = [] then []
            else [Doc.mk (C p) src fmt (some p)])).filterMap Doc.page) := by
  intro ks
  induction ks with
  | nil => intro _; simp
  | cons k t ih =>
    intro hp
    rcases List.pairwise_cons.mp hp with ⟨hall, ht⟩
    rw [List.flatMap_cons, List.filterMap_append]
    rw [List.pairwise_append]
    refine ⟨?_, ih ht, ?_⟩
    · by_cases hg : pyStrip (C k) = [] <;> simp [hg]
    · intro x hx y hy
      have hxk : x = k := by
        by_cases hg : pyStrip (C k) = []
        · rw [if_pos hg] at hx
          simp at hx
        · rw [if_neg hg] at hx
          simp [Doc.page] at hx
          exact hx
      subst hxk
      exact hall y (grouperDocs_pages_mem fmt src C t y hy)

/-- C2: `_split_json_into_pages` emits at most one record per distinct page
number, in strictly ascending page order, and each record's content is the
newline-join of the extractions of the top-level kids of that page in their
original sibling order. -/
theorem C2_page_grouper_ordering (fmt src : String) (kids : List Element) :
    List.Pairwise (· < ·) ((splitJsonIntoPages fmt src kids).filterMap Doc.page) ∧
    ∀ d ∈ splitJsonIntoPages fmt src kids, ∃ p : Int, d.page = some p ∧
      d.content =
        joinNL (filterNonEmpty ((kids.filter (fun e => pageOf e = p)).map extractText)) := by
  have hnodup : (sortInts ((buildGroups kids).map Prod.fst)).Nodup :=
    ((List.perm_insertionSort (α := Int) (· ≤ ·) _).nodup_iff).mpr (keys_nodup kids)
  have hsorted : List.Pairwise (· ≤ ·) (sortInts ((buildGroups kids).map Prod.fst)) :=
    List.sorted_insertionSort (α := Int) (· ≤ ·) _
  have hlt : List.Pairwise (· < ·) (sortInts ((buildGroups kids).map Prod.fst)) :=
    (hsorted.and hnodup).imp (fun h => lt_of_le_of_ne h.1 h.2)
  constructor
  · exact grouperDocs_pairwise fmt src _ _ hlt
  · intro d hd
    unfold splitJsonIntoPages at hd
    rcases List.mem_flatMap.mp hd with ⟨p, hp, hmem⟩
    by_cases hg : pyStrip
        (joinNL (filterNonEmpty ((lookupGroup (buildGroups kids) p).map extractText))) = []
    · rw [if_pos hg] at hmem
      simp at hmem
    · rw [if_neg hg] at hmem
      simp at hmem
      subst hmem
      exact ⟨p, rfl, by rw [lookupGroup_buildGroups]⟩

theorem C2_witness :
    List.Pairwise (· < ·)
      ((splitJsonIntoPages "json" "t.pdf"
        [.mk (some ("on page 3".data)) (some 3) [] [] [] [],
         .mk (some ("on page 1".data)) (some 1) [] [] [] [],
         .mk (some ("also page 1".data)) (some 1) [] [] [] []]).filterMap Doc.page) :=
  (C2_page_grouper_ordering "json" "t.pdf"
    [.mk (some ("on page 3".data)) (some 3) [] [] [] [],
     .mk (some ("on page 1".data)) (some 1) [] [] [] [],
     .mk (some ("also page 1".data)) (some 1) [] [] [] []]).1

/-! ### Decimal rendering of page numbers -/

theorem isDigitC_digitChar (n : Nat) : isDigitC (digitChar n) = true := by
  unfold digitChar
  split <;> decide

theorem digitVal_digitChar {n : Nat} (h : n < 10) : digitVal (digitChar n) = n := by
  interval_cases n <;> decide

theorem decimalDigitsAux_ne_nil (fuel n : Nat) : decimalDigitsAux fuel n ≠ [] := by
  cases fuel with
  | zero => simp [decimalDigitsAux]
  | succ f =>
    rw [decimalDigitsAux]
    by_cases h : n < 10 <;> simp [h]

theorem decimalDigitsAux_digits (fuel n : Nat) :
    ∀ c ∈ decimalDigitsAux fuel n, isDigitC c = true := by
  induction fuel generalizing n with
  | zero =>
    intro c hc
    rw [decimalDigitsAux] at hc
    simp at hc
    simp [hc, isDigitC_digitChar]
  | succ f ih =>
    intro c hc
    rw [decimalDigitsAux] at hc
    by_cases h : n < 10
    · rw [if_pos h] at hc
      simp at hc
      simp [hc, isDigitC_digitChar]
    · rw [if_neg h] at hc
      rcases List.mem_append.mp hc with h1 | h1
      · exact ih (n / 10) c h1
      · simp at h1
        simp [h1, isDigitC_digitChar]

theorem decimalDigits_ne_nil (n : Nat) : decimalDigits n ≠ [] :=
  decimalDigitsAux_ne_nil n n

theorem decimalDigits_digits (n : Nat) :
    ∀ c ∈ decimalDigits n, isDigitC c = true :=
  decimalDigitsAux_digits n n

theorem parseNat_append_digit (xs : List Char) (c : Char) :
    parseNat (xs ++ [c]) = 10 * parseNat xs + digitVal c := by
  unfold parseNat
  rw [List.foldl_append]
  rfl

theorem parseNat_decimalDigitsAux (fuel : Nat) :
    ∀ n : Nat, n ≤ fuel → parseNat (decimalDigitsAux fuel n) = n := by
  induction fuel with
  | zero =>
    intro n hn
    have : n = 0 := by omega
    subst this
    decide
  | succ f ih =>
    intro n hn
    rw [decimalDigitsAux]
    by_cases h : n < 10
    · rw [if_pos h]
      show parseNat ([] ++ [digitChar n]) = n
      rw [parseNat_append_digit]
      simp [parseNat, digitVal_digitChar h]
    · rw [if_neg h]
      rw [parseNat_append_digit]
      rw [ih (n / 10) (by omega)]
      rw [digitVal_digitChar (Nat.mod_lt n (by omega))]
      omega

/-- `int(str(n)) = n`. -/
theorem parseNat_decimalDigits (n : Nat) : parseNat (decimalDigits n) = n :=
  parseNat_decimalDigitsAux n n le_rfl

/-! ### No match can start inside a well-behaved page -/

theorem hasSepFrom_cons_false {c : Char} {cs : List Char}
    (h : hasSepFrom (c :: cs) = false) :
    matchSepAt (c :: cs) = none ∧ hasSepFrom cs = false := by
  rw [hasSepFrom, Bool.or_eq_false_iff] at h
  refine ⟨?_, h.2⟩
  cases hm : matchSepAt (c :: cs) with
  | none => rfl
  | some v =>
    have := h.1
    rw [hm] at this
    simp at this

theorem endsDangling_cons_false {c : Char} {cs : List Char}
    (h : endsDangling (c :: cs) = false) :
    (∀ ds, matchSepAt ((c :: cs) ++ ['\n']) ≠ some (ds, [])) ∧
      endsDangling cs = false := by
  rw [endsDangling, Bool.or_eq_false_iff] at h
  refine ⟨?_, h.2⟩
  intro ds hds
  have := h.1
  rw [hds] at this
  simp at this

/-- The crucial no-straddling lemma: a match can never start strictly
inside a page that itself has no match and does not end with a dangling
separator, even when the page is followed by text starting with `'\n'`
(such as the next injected separator). -/
theorem matchSepAt_none_of_scan (t : List Char) (ht : t ≠ [])
    (h1 : matchSepAt t = none)
    (h2 : ∀ ds, matchSepAt (t ++ ['\n']) ≠ some (ds, []))
    (w2 : List Char) :
    matchSepAt (t ++ '\n' :: w2) = none := by
  cases hm : matchSepAt (t ++ '\n' :: w2) with
  | none => rfl
  | some v =>
    exfalso
    obtain ⟨d, r⟩ := v
    obtain ⟨heq, hne, hdig⟩ := matchSepAt_some.mp hm
    rw [show sepPre ++ d ++ sepSuf ++ r = (sepPre ++ d ++ sepSuf) ++ r by simp] at heq
    rcases List.append_eq_append_iff.mp heq with ⟨m, hM, hw⟩ | ⟨m, hT, hr⟩
    · -- the match sticks out of `t` by `m` characters
      cases m with
      | nil =>
        rw [List.append_nil] at hM
        have hsome : matchSepAt t = some (d, []) :=
          matchSepAt_some.mpr ⟨by rw [List.append_nil]; exact hM.symm, hne, hdig⟩
        rw [h1] at hsome
        exact Option.noConfusion hsome
      | cons c m2 =>
        rw [List.cons_append] at hw
        injection hw with hc hw2
        subst hc
        cases m2 with
        | nil =>
          refine h2 d (matchSepAt_some.mpr ⟨?_, hne, hdig⟩)
          rw [List.append_nil]
          exact hM.symm
        | cons c2 m3 =>
          -- interior newline: impossible since the only newlines of the
          -- matched text are its first and last characters
          have hpre : sepPre = '\n' :: "<<<ODL_PAGE_BREAK_".data := by decide
          have hsuf : sepSuf = ">>>".data ++ ['\n'] := by decide
          have hM2 : sepPre ++ d ++ sepSuf =
              '\n' :: (("<<<ODL_PAGE_BREAK_".data ++ d ++ ">>>".data) ++ ['\n']) := by
            rw [hpre, hsuf]
            simp
          have hlit1 : ∀ y ∈ "<<<ODL_PAGE_BREAK_".data, y ≠ '\n' := by decide
          have hlit2 : ∀ y ∈ ">>>".data, y ≠ '\n' := by decide
          have hmid : ∀ x ∈ "<<<ODL_PAGE_BREAK_".data ++ d ++ ">>>".data, x ≠ '\n' := by
            intro x hx
            rcases List.mem_append.mp hx with hx1 | hx1
            · rcases List.mem_append.mp hx1 with hx2 | hx2
              · exact hlit1 x hx2
              · intro hxn
                have hd := hdig x hx2
                rw [hxn] at hd
                exact absurd hd (by decide)
            · exact hlit2 x hx1
          obtain ⟨a, t2, rfl⟩ : ∃ a t2, t = a :: t2 := by
            cases t with
            | nil => exact absurd rfl ht
            | cons a t2 => exact ⟨a, t2, rfl⟩
          rw [hM2, List.cons_append] at hM
          injection hM with ha htail
          rcases List.append_eq_append_iff.mp htail with ⟨u, hu1, hu2⟩ | ⟨u, hu1, hu2⟩
          · -- t2 = mid ++ u and ['\n'] = u ++ '\n' :: c2 :: m3
            have hlen := congrArg List.length hu2
            simp at hlen
            omega
          · -- mid = t2 ++ u and '\n' :: c2 :: m3 = u ++ ['\n']
            cases u with
            | nil => simp at hu2
            | cons cu u2 =>
              rw [List.cons_append] at hu2
              injection hu2 with hcu hrest
              have hmem : cu ∈ t2 ++ cu :: u2 := List.mem_append_right _ (by simp)
              rw [← hu1] at hmem
              exact hmid cu hmem hcu.symm
    · -- the match lies entirely within `t`
      have hsome : matchSepAt t = some (d, m) :=
        matchSepAt_some.mpr ⟨by rw [hT], hne, hdig⟩
      rw [h1] at hsome
      exact Option.noConfusion hsome

/-- Scanning across a well-behaved page followed by `'\n'`-headed text just
accumulates the page into the current segment. -/
theorem splitAux_scan (p : List Char) (hno : hasSepFrom p = false)
    (hnd : endsDangling p = false) :
    ∀ (fuel : Nat) (acc : List Char) (w2 : List Char),
      (p ++ '\n' :: w2).length ≤ fuel →
      splitAux fuel acc (p ++ '\n' :: w2) =
        splitAux ('\n' :: w2).length (acc ++ p) ('\n' :: w2) := by
  induction p with
  | nil =>
    intro fuel acc w2 hf
    rw [List.nil_append] at hf ⊢
    rw [List.append_nil]
    exact splitAux_fuel_eq acc _ hf le_rfl
  | cons c p2 ih =>
    intro fuel acc w2 hf
    obtain ⟨hm1, hno2⟩ := hasSepFrom_cons_false hno
    obtain ⟨hd1, hnd2⟩ := endsDangling_cons_false hnd
    have hnone : matchSepAt ((c :: p2) ++ '\n' :: w2) = none :=
      matchSepAt_none_of_scan (c :: p2) (by simp) hm1 hd1 w2
    cases fuel with
    | zero => simp at hf
    | succ f =>
      rw [List.cons_append] at hnone hf ⊢
      rw [splitAux]
      simp only [hnone]
      rw [ih hno2 hnd2 f (acc ++ [c]) w2 (by simp only [List.length_cons, List.length_append] at hf ⊢; omega)]
      simp

/-- The scan at an injected separator: close the segment, capture the
digits, continue after it. -/
theorem splitAux_sep (i : Nat) (Z : List Char) (fuel : Nat)
    (hf : (sepFor i ++ Z).length ≤ fuel) (acc : List Char) :
    splitAux fuel acc (sepFor i ++ Z) =
      acc :: decimalDigits i :: splitAux Z.length [] Z := by
  have hm : matchSepAt (sepFor i ++ Z) = some (decimalDigits i, Z) :=
    matchSepAt_some.mpr ⟨by rw [sepFor], decimalDigits_ne_nil i,
      decimalDigits_digits i⟩
  have hshape : sepFor i ++ Z =
      '\n' :: ("<<<ODL_PAGE_BREAK_".data ++ decimalDigits i ++ sepSuf ++ Z) := by
    rw [sepFor, show sepPre = '\n' :: "<<<ODL_PAGE_BREAK_".data from by decide]
    simp
  have hlen : (sepFor i ++ Z).length = (sepFor i).length + Z.length :=
    List.length_append ..
  have hpos : 0 < (sepFor i).length := by
    rw [sepFor]
    simp [sepPre]
  cases fuel with
  | zero => omega
  | succ f =>
    rw [hshape] at hm ⊢
    rw [splitAux]
    simp only [hm]
    rw [splitAux_fuel_eq [] Z (by rw [hshape, List.length_cons] at hf hlen; omega) le_rfl]

/-- The scan over the whole tail `p ++ sep(i) ++ q ++ sep(i+1) ++ ...`:
one segment per page, one captured digit group per separator. -/
theorem splitAux_mid :
    ∀ (ps : List (List Char)) (i : Nat) (p : List Char),
      (∀ q ∈ p :: ps, hasSepFrom q = false ∧ endsDangling q = false) →
      splitAux (p ++ joinPagesFrom i ps).length [] (p ++ joinPagesFrom i ps) =
        p :: pairsParts i ps := by
  intro ps
  induction ps with
  | nil =>
    intro i p h
    rw [joinPagesFrom, List.append_nil, pairsParts]
    obtain ⟨hno, -⟩ := h p (by simp)
    simpa using splitAux_no_match hno le_rfl []
  | cons q qs ih =>
    intro i p h
    obtain ⟨hno, hnd⟩ := h p (by simp)
    have hshape : joinPagesFrom i (q :: qs) =
        '\n' :: ("<<<ODL_PAGE_BREAK_".data ++ decimalDigits i ++ sepSuf ++
          (q ++ joinPagesFrom (i + 1) qs)) := by
      rw [joinPagesFrom, sepFor,
        show sepPre = '\n' :: "<<<ODL_PAGE_BREAK_".data from by decide]
      simp
    rw [hshape]
    rw [splitAux_scan p hno hnd _ [] _ le_rfl]
    rw [List.nil_append]
    rw [show ('\n' :: ("<<<ODL_PAGE_BREAK_".data ++ decimalDigits i ++ sepSuf ++
          (q ++ joinPagesFrom (i + 1) qs))) =
        sepFor i ++ (q ++ joinPagesFrom (i + 1) qs) from by
      rw [sepFor, show sepPre = '\n' :: "<<<ODL_PAGE_BREAK_".data from by decide]
      simp]
    rw [splitAux_sep i _ _ le_rfl p]
    rw [ih (i + 1) q (fun x hx => h x (by simp at hx ⊢; tauto))]
    rw [pairsParts]

/-- The pair loop on the well-formed part list gives exactly the expected
records. -/
theorem pagePairs_pairsParts (fmt src : String) :
    ∀ (ps : List (List Char)) (i : Nat), (∀ p ∈ ps, pyStrip p ≠ []) →
      pagePairs fmt src (pairsParts i ps) = expectedDocs fmt src i ps := by
  intro ps
  induction ps with
  | nil => intro i h; rw [pairsParts, pagePairs, expectedDocs]
  | cons p ps2 ih =>
    intro i h
    rw [pairsParts, pagePairs, expectedDocs]
    rw [if_neg (h p (by simp))]
    rw [parseNat_decimalDigits]
    rw [ih (i + 1) (fun x hx => h x (by simp [hx]))]
    rfl

theorem expectedDocs_length (fmt src : String) :
    ∀ (ps : List (List Char)) (i : Nat),
      (expectedDocs fmt src i ps).length = ps.length := by
  intro ps
  induction ps with
  | nil => intro i; rfl
  | cons p ps2 ih =>
    intro i
    rw [expectedDocs]
    simp [ih]

/-- C1 (amended): the splitter round-trip holds when, in addition to
containing no occurrence of the separator pattern, no page content ends
with a dangling separator (the pattern minus its final newline, which the
following separator's leading newline would complete). -/
theorem C1_splitter_round_trip_amended (fmt src : String) (ps : List (List Char))
    (hne : ps ≠ [])
    (h : ∀ p ∈ ps, pyStrip p ≠ [] ∧ hasSepFrom p = false ∧ endsDangling p = false) :
    splitIntoPages fmt (joinPagesFrom 1 ps) src = expectedDocs fmt src 1 ps ∧
    (expectedDocs fmt src 1 ps).length = ps.length := by
  have hparts : reSplit (joinPagesFrom 1 ps) = [] :: pairsParts 1 ps := by
    obtain ⟨p, ps2, rfl⟩ : ∃ p ps2, ps = p :: ps2 := by
      cases ps with
      | nil => exact absurd rfl hne
      | cons p ps2 => exact ⟨p, ps2, rfl⟩
    rw [reSplit, joinPagesFrom]
    rw [show sepFor 1 ++ p ++ joinPagesFrom 2 ps2 =
        sepFor 1 ++ (p ++ joinPagesFrom 2 ps2) from by simp]
    rw [splitAux_sep 1 _ _ le_rfl []]
    rw [splitAux_mid ps2 2 p (fun x hx => (h x hx).2)]
    rw [pairsParts]
  constructor
  · rw [show splitIntoPages fmt (joinPagesFrom 1 ps) src =
        (if pyStrip ([] : List Char) = [] then [] else
          [{ content := pyStrip [], source := src, format := fmt, page := some 1 }]) ++
          pagePairs fmt src (pairsParts 1 ps) from by rw [splitIntoPages, hparts]]
    rw [if_pos (by decide)]
    rw [List.nil_append]
    exact pagePairs_pairsParts fmt src ps 1 (fun x hx => (h x hx).1)
  · exact expectedDocs_length fmt src ps 1

theorem C1_witness :
    ((["Hello".data, "World".data] : List (List Char)) ≠ [] ∧
      ∀ p ∈ [("Hello".data : List Char), "World".data],
        pyStrip p ≠ [] ∧ hasSepFrom p = false ∧ endsDangling p = false) ∧
    splitIntoPages "text" (joinPagesFrom 1 ["Hello".data, "World".data]) "doc.pdf" =
      expectedDocs "text" "doc.pdf" 1 ["Hello".data, "World".data] :=
  ⟨⟨by decide, by decide⟩,
    (C1_splitter_round_trip_amended "text" "doc.pdf" ["Hello".data, "World".data]
      (by decide) (by decide)).1⟩

/-- C1 counterexample to the claim as stated: both pages are non-empty
after trimming and contain no occurrence of the separator pattern, yet the
splitter does not recover them — the first page ends with a dangling
separator (`...BREAK_7>>>` with no trailing newline, hence no occurrence),
which captures the following separator's leading newline, so the second
record is labeled page 7 and carries the leftover separator text. -/
theorem C1_counterexample :
    pyStrip ("A\n<<<ODL_PAGE_BREAK_7>>>".data) ≠ [] ∧
    hasSepFrom ("A\n<<<ODL_PAGE_BREAK_7>>>".data) = false ∧
    pyStrip ("B".data) ≠ [] ∧
    hasSepFrom ("B".data) = false ∧
    splitIntoPages "text"
        (joinPagesFrom 1 ["A\n<<<ODL_PAGE_BREAK_7>>>".data, "B".data]) "doc.pdf" ≠
      expectedDocs "text" "doc.pdf" 1 ["A\n<<<ODL_PAGE_BREAK_7>>>".data, "B".data] := by
  refine ⟨by decide, by decide, by decide, by decide, by decide⟩

end ODL
